import Mathlib

/-!
Verification of the stack-frame structure recovery stage of fcd
(`pass_locals.cpp`): the frame type builder (`IdentifyLocals::analyzeObject`,
`IdentifyLocals::readObject`), the type tree normalizer
(`simplifyTrivialStructures`) and the presentation layer
(`StackObject::print`), embedded shallowly as executable Lean functions.

The SSA use graph is abstracted to exactly the classification the code
performs on each direct use of a base value:

* `Use.addConst off users` — a `BinaryOperator` with opcode `Add` whose other
  operand is a `ConstantInt` with value `off`; `users` are the direct uses of
  the add instruction itself (the recursion target of `readObject`).
* `Use.addVar` — an `Add` whose other operand is not a constant
  (the `return false` branch marked IMPLEMENT ME).
* `Use.binOther` — a `BinaryOperator` whose opcode is not `Add`
  (`binOp->getOpcode() != BinaryOperator::Add` → `return false`).
* `Use.cast b ts` — a `CastInst`; `b` is true when its opcode is `IntToPtr`.
  `ts` lists, per user of the cast, `getLoadStoreType` of that user:
  `some T` for a load of type `T` or a store whose value operand has type
  `T`, `none` for any other user.  Type names are strings.
* `Use.other` — any user that is neither a `BinaryOperator` nor a `CastInst`
  (for example a comparison or a call).
-/

inductive Use : Type where
  | addConst (offset : Int) (users : List Use) : Use
  | addVar : Use
  | binOther : Use
  | cast (isIntToPtr : Bool) (castUsers : List (Option String)) : Use
  | other : Use

/-- The `StackObject` node of `pass_locals.cpp`.  The C++ type is a tagged
union of raw pointers allocated from an arena; nullable `StackObject*`
pointers are embedded as the dedicated `null` constructor, so that
`readObject` returning `nullptr` (unrecoverable) and a null
`structNextField` (end of the sibling chain) are represented directly.
An `object` node stores, in place of its `CastInst* objectPointer`, the
`getLoadStoreType` results of the cast instruction's users, which is all
`print` ever reads from it (through `getPointerCastTypes`). -/
inductive StackObject : Type where
  | null : StackObject
  | object (objectPointer : List (Option String)) : StackObject
  | array (arrayElementType : StackObject) (arrayMinKnownCount : Nat) : StackObject
  | structField (offsetFromParent : Int) (structFieldType : StackObject)
      (structNextField : StackObject) : StackObject
deriving DecidableEq

/-- `SmallPtrSet::insert`: add `t` at the end unless already present.
Iteration order of the small set is insertion order. -/
def insertType (types : List String) (t : String) : List String :=
  if t ∈ types then types else types ++ [t]

/-- `getPointerCastTypes`: collect the distinct load/store types observed
through the users of the cast instruction. -/
def getPointerCastTypes (castUsers : List (Option String)) : List String :=
  castUsers.foldl (fun acc u => match u with | some t => insertType acc t | none => acc) []

/-- The comma-separated list body that `StackObject::print` emits for an
`Object` node: first type, then `", "` before each further type.  The C++
code asserts the set is non-empty and dereferences the first element; the
empty case (undefined behavior / assertion failure in C++) renders as `""`
here and is tracked separately by `scalarTypesNonempty`. -/
def scalarTypeList : List String → String
  | [] => ""
  | [t] => t
  | t :: rest => t ++ ", " ++ scalarTypeList rest

/-- `StackObject::print`.  `asRest = false` prints a node; `asRest = true`
prints the tail of a sibling chain the way the `for` loop in the
`StructField` branch does (`", " << offset << ": " << fieldType`), stopping
at the null pointer. -/
def printAux : Bool → StackObject → String
  | _, .null => ""
  | false, .object p => "(" ++ scalarTypeList (getPointerCastTypes p) ++ ")"
  | false, .array e n => "[" ++ toString n ++ " x " ++ printAux false e ++ "]"
  | false, .structField off t next =>
      "\x7b" ++ toString off ++ ": " ++ printAux false t ++ printAux true next ++ "\x7d"
  | true, .structField off t next =>
      ", " ++ toString off ++ ": " ++ printAux false t ++ printAux true next
  | true, .object _ => ""
  | true, .array _ _ => ""

def StackObject.print (o : StackObject) : String := printAux false o

/-- The assertion `assert(types.size() > 0)` in the `Object` branch of
`StackObject::print`, checked over a whole tree: every `object` node must
have a non-empty observed type set. -/
def scalarTypesNonempty : StackObject → Bool
  | .null => true
  | .object p => !(getPointerCastTypes p).isEmpty
  | .array e _ => scalarTypesNonempty e
  | .structField _ t next => scalarTypesNonempty t && scalarTypesNonempty next

/-- `simplifyTrivialStructures`: when the first field's type of a struct is
itself a struct with a single field at offset 0, replace the field's type
with the grandchild's (simplified) type; otherwise leave the field's type
alone.  Always recurse along the sibling chain, and into array element
types.  Null maps to null. -/
def simplifyTrivialStructures : StackObject → StackObject
  | .null => .null
  | .object p => .object p
  | .array e n => .array (simplifyTrivialStructures e) n
  | .structField off (.structField 0 cft .null) next =>
      .structField off (simplifyTrivialStructures cft) (simplifyTrivialStructures next)
  | .structField off child next =>
      .structField off child (simplifyTrivialStructures next)

/-- One entry of the `map<int64_t, Instruction*> constantOffsets`: the
constant offset, and the add instruction that produced it — represented by
that instruction's own list of direct uses — or `none` for the synthetic
`{0, nullptr}` entry. -/
abbrev OffEntry := Int × Option (List Use)

/-- `std::map::insert({k, v})` on an association list kept sorted by key:
insertion keeps the map sorted and does nothing when the key is already
present (it does NOT overwrite). -/
def mapInsert (m : List OffEntry) (k : Int) (v : Option (List Use)) : List OffEntry :=
  match m with
  | [] => [(k, v)]
  | (k1, v1) :: rest =>
    if k < k1 then (k, v) :: (k1, v1) :: rest
    else if k = k1 then (k1, v1) :: rest
    else (k1, v1) :: mapInsert rest k v

/-- The loop of `IdentifyLocals::analyzeObject` over `base.users()`:
threads the `castedAs` slot (overwritten by every `IntToPtr` cast) and the
`constantOffsets` map; returns `none` for the two `return false` branches
(a non-`Add` binary operator, and an `Add` by a non-constant).
`variableOffsetStrides` is never written by the C++ loop and stays empty,
so it is not threaded. -/
def analyzeLoop : List Use → Option (List (Option String)) → List OffEntry →
    Option (Option (List (Option String)) × List OffEntry)
  | [], castedAs, offsets => some (castedAs, offsets)
  | u :: rest, castedAs, offsets =>
    match u with
    | .addConst off users => analyzeLoop rest castedAs (mapInsert offsets off (some users))
    | .addVar => none
    | .binOther => none
    | .cast isIntToPtr castUsers =>
        analyzeLoop rest (if isIntToPtr then some castUsers else castedAs) offsets
    | .other => analyzeLoop rest castedAs offsets

/-- `IdentifyLocals::analyzeObject` on a base value given as its list of
direct uses, starting from a null `castedAs` and an empty offset map. -/
def analyzeObject (uses : List Use) :
    Option (Option (List (Option String)) × List OffEntry) :=
  analyzeLoop uses none []

/-- Build the linked `StructField` sibling chain exactly as the
`firstItem`/`lastItem` loop of `readObject` does, from the surviving
`(relative offset, child)` pairs in map order. -/
def mkChain : List (Int × StackObject) → StackObject
  | [] => .null
  | (off, t) :: rest => .structField off t (mkChain rest)

/-- The body of `if (auto child = ...)` in the field loop of `readObject`:
a null child contributes no field, a non-null child becomes a field at
offset `k - front`. -/
def surviveField (front k : Int) (child : StackObject) : Option (Int × StackObject) :=
  match child with
  | .null => none
  | child => some (k - front, child)

mutual
/-- Nesting depth of `addConst` uses below one use: a strict bound on the
recursion depth of `readObject`, used as its fuel. -/
def useDepth : Use → Nat
  | .addConst _ users => usesDepth users + 1
  | _ => 0

/-- Nesting depth of `addConst` uses in a use list. -/
def usesDepth : List Use → Nat
  | [] => 0
  | u :: rest => max (useDepth u) (usesDepth rest)
end

/-- `IdentifyLocals::readObject`, with explicit fuel for the recursion into
the add instructions recorded in the offset map (fuel 0 never occurs when
called with sufficient fuel, see `readObject`).  Mirrors the C++ control
flow: fail if `analyzeObject` fails; build the scalar interpretation
`offset0` from `castedAs`; the variable-offset map is always empty, so the
array branch is unreachable; insert the synthetic `{0, nullptr}` entry when
`offset0` exists; if the map is non-empty, emit one field per entry whose
child (the recursion, or `offset0` for the synthetic entry) is non-null,
each at its offset relative to the first (smallest) key; otherwise return
`offset0` (necessarily null at that point). -/
def readObjectF : Nat → List Use → StackObject
  | 0, _ => .null
  | fuel + 1, uses =>
    match analyzeObject uses with
    | none => .null
    | some (castedAs, offsets) =>
      let offset0 : StackObject :=
        match castedAs with
        | some c => .object c
        | none => .null
      let allOffsets : List OffEntry :=
        match castedAs with
        | some _ => mapInsert offsets 0 none
        | none => offsets
      match allOffsets with
      | [] => offset0
      | (front, v) :: rest =>
        mkChain (((front, v) :: rest).filterMap (fun kv =>
          surviveField front kv.1
            (match kv.2 with
             | none => offset0
             | some us => readObjectF fuel us)))

/-- `IdentifyLocals::readObject` on a base value.  `usesDepth uses` strictly
bounds the recursion depth, so `usesDepth uses + 1` is always sufficient
fuel (`readObjectF_congr` below makes this precise). -/
def readObject (uses : List Use) : StackObject :=
  readObjectF (usesDepth uses + 1) uses

/-- The per-function output of `IdentifyLocals::runOnFunction` after the
`fn.getName() << ": "` prefix: if `readObject` recovered a tree, normalize
it with `simplifyTrivialStructures` and print it; otherwise the report line
is empty. -/
def report (uses : List Use) : String :=
  match readObject uses with
  | .null => ""
  | root => (simplifyTrivialStructures root).print

/-- The offsets along a `StructField` sibling chain, in chain order. -/
def chainOffsets : StackObject → List Int
  | .structField off _ next => off :: chainOffsets next
  | _ => []

/-- Iterated single-field offset-0 struct wrapper around a node. -/
def wrap : Nat → StackObject → StackObject
  | 0, t => t
  | n + 1, t => .structField 0 (wrap n t) .null

example : readObject [Use.cast true [some "int8"]]
    = .structField 0 (.object [some "int8"]) .null := by decide

example : report [Use.addConst 0 [Use.cast true [some "int32"]],
    Use.addConst 4 [Use.cast true [some "int32"]]] = "\x7b0: (int32), 4: (int32)\x7d" := by decide

/-! Infrastructure lemmas about the offset map, the analysis loop, the
depth bound and the fuel of `readObjectF`. -/

theorem mapInsert_mem {m : List OffEntry} {k : Int} {v : Option (List Use)}
    {kv : OffEntry} (h : kv ∈ mapInsert m k v) : kv ∈ m ∨ kv = (k, v) := by
  induction m with
  | nil => simpa [mapInsert] using h
  | cons e rest ih =>
    obtain ⟨k1, v1⟩ := e
    simp only [mapInsert] at h
    split_ifs at h
    · rcases List.mem_cons.mp h with h1 | h1
      · right; exact h1
      · left; exact h1
    · left; exact h
    · rcases List.mem_cons.mp h with h1 | h1
      · left; simp [h1]
      · rcases ih h1 with h2 | h2
        · left; exact List.mem_cons_of_mem _ h2
        · right; exact h2

theorem mapInsert_ne_nil {m : List OffEntry} {k : Int} {v : Option (List Use)} :
    mapInsert m k v ≠ [] := by
  cases m with
  | nil => simp [mapInsert]
  | cons e rest =>
    obtain ⟨k1, v1⟩ := e
    simp only [mapInsert]
    split
    · simp
    · split <;> simp

theorem mapInsert_pairwise {m : List OffEntry} {k : Int} {v : Option (List Use)}
    (h : m.Pairwise (fun a b => a.1 < b.1)) :
    (mapInsert m k v).Pairwise (fun a b => a.1 < b.1) := by
  induction m with
  | nil => simp [mapInsert]
  | cons e rest ih =>
    obtain ⟨k1, v1⟩ := e
    rw [List.pairwise_cons] at h
    obtain ⟨h1, h2⟩ := h
    simp only [mapInsert]
    split
    · rename_i hlt
      refine List.Pairwise.cons ?_ (List.Pairwise.cons h1 h2)
      intro b hb
      rcases List.mem_cons.mp hb with hb | hb
      · simp [hb]; exact hlt
      · exact lt_trans hlt (h1 b hb)
    · split
      · exact List.Pairwise.cons h1 h2
      · rename_i hnlt hne
        refine List.Pairwise.cons ?_ (ih h2)
        intro b hb
        rcases mapInsert_mem hb with hb | hb
        · exact h1 b hb
        · subst hb; omega

theorem mapInsert_gt {m : List OffEntry} {k : Int} {v : Option (List Use)}
    (h : ∀ e ∈ m, e.1 < k) : mapInsert m k v = m ++ [(k, v)] := by
  induction m with
  | nil => simp [mapInsert]
  | cons e rest ih =>
    obtain ⟨k1, v1⟩ := e
    have hk1 : k1 < k := h (k1, v1) (List.mem_cons_self _ _)
    simp only [mapInsert]
    rw [if_neg (by omega), if_neg (by omega), ih (fun e he => h e (List.mem_cons_of_mem _ he))]
    simp

theorem mapInsert_zero_append {m : List OffEntry} {k : Int}
    {v w : Option (List Use)} (hk : 0 < k) (h : ∀ e ∈ m, e.1 < k) :
    mapInsert (m ++ [(k, v)]) 0 w = mapInsert m 0 w ++ [(k, v)] := by
  induction m with
  | nil => simp [mapInsert, if_pos hk, if_neg (by omega : ¬ (0:Int) < 0)]
  | cons e rest ih =>
    obtain ⟨k1, v1⟩ := e
    simp only [List.cons_append, mapInsert]
    split
    · simp
    · split
      · simp
      · have h2 := ih (fun e he => h e (List.mem_cons_of_mem _ he))
        simp only [List.append_eq]
        rw [h2]
        simp

theorem analyzeLoop_mem :
    ∀ {uses : List Use} {c : Option (List (Option String))} {m : List OffEntry}
      {c' : Option (List (Option String))} {m' : List OffEntry},
      analyzeLoop uses c m = some (c', m') → ∀ {kv : OffEntry}, kv ∈ m' →
      kv ∈ m ∨ ∃ us, kv.2 = some us ∧ Use.addConst kv.1 us ∈ uses := by
  intro uses
  induction uses with
  | nil =>
    intro c m c' m' h kv hkv
    simp only [analyzeLoop, Option.some.injEq, Prod.mk.injEq] at h
    left; rw [h.2]; exact hkv
  | cons u rest ih =>
    intro c m c' m' h kv hkv
    cases u with
    | addConst off users =>
      simp only [analyzeLoop] at h
      rcases ih h hkv with hmem | ⟨us, hv, hmem⟩
      · rcases mapInsert_mem hmem with hmem | hmem
        · left; exact hmem
        · right
          refine ⟨users, ?_, ?_⟩
          · rw [hmem]
          · rw [hmem]; exact List.mem_cons_self _ _
      · right; exact ⟨us, hv, List.mem_cons_of_mem _ hmem⟩
    | addVar => simp [analyzeLoop] at h
    | binOther => simp [analyzeLoop] at h
    | cast b cus =>
      simp only [analyzeLoop] at h
      rcases ih h hkv with hmem | ⟨us, hv, hmem⟩
      · left; exact hmem
      · right; exact ⟨us, hv, List.mem_cons_of_mem _ hmem⟩
    | other =>
      simp only [analyzeLoop] at h
      rcases ih h hkv with hmem | ⟨us, hv, hmem⟩
      · left; exact hmem
      · right; exact ⟨us, hv, List.mem_cons_of_mem _ hmem⟩

theorem analyzeLoop_pairwise :
    ∀ {uses : List Use} {c : Option (List (Option String))} {m : List OffEntry}
      {c' : Option (List (Option String))} {m' : List OffEntry},
      analyzeLoop uses c m = some (c', m') →
      m.Pairwise (fun a b => a.1 < b.1) → m'.Pairwise (fun a b => a.1 < b.1) := by
  intro uses
  induction uses with
  | nil =>
    intro c m c' m' h hm
    simp only [analyzeLoop, Option.some.injEq, Prod.mk.injEq] at h
    rw [← h.2]; exact hm
  | cons u rest ih =>
    intro c m c' m' h hm
    cases u with
    | addConst off users => exact ih h (mapInsert_pairwise hm)
    | addVar => simp [analyzeLoop] at h
    | binOther => simp [analyzeLoop] at h
    | cast b cus => exact ih h hm
    | other => exact ih h hm

theorem analyzeLoop_append {l1 l2 : List Use} :
    ∀ {c : Option (List (Option String))} {m : List OffEntry},
      analyzeLoop (l1 ++ l2) c m =
      (analyzeLoop l1 c m).bind (fun p => analyzeLoop l2 p.1 p.2) := by
  induction l1 with
  | nil => intro c m; simp [analyzeLoop]
  | cons u rest ih =>
    intro c m
    cases u <;> simp only [List.cons_append, analyzeLoop] <;>
      first
        | rfl
        | exact ih

theorem analyzeLoop_addVar {uses : List Use} (h : Use.addVar ∈ uses) :
    ∀ {c : Option (List (Option String))} {m : List OffEntry},
      analyzeLoop uses c m = none := by
  induction uses with
  | nil => cases h
  | cons u rest ih =>
    intro c m
    rcases List.mem_cons.mp h with h1 | h1
    · rw [← h1]; rfl
    · cases u <;> first
        | rfl
        | exact ih h1

theorem usesDepth_lt {uses : List Use} {off : Int} {us : List Use}
    (h : Use.addConst off us ∈ uses) : usesDepth us < usesDepth uses := by
  induction uses with
  | nil => cases h
  | cons u rest ih =>
    rcases List.mem_cons.mp h with h1 | h1
    · have : useDepth u = usesDepth us + 1 := by rw [← h1]; rfl
      simp only [usesDepth, this]
      omega
    · have := ih h1
      simp only [usesDepth]
      omega

theorem analyzeObject_value_depth {uses : List Use}
    {c : Option (List (Option String))} {m : List OffEntry}
    (h : analyzeObject uses = some (c, m)) {k : Int} {us : List Use}
    (hkv : (k, some us) ∈ m) : usesDepth us < usesDepth uses := by
  rcases analyzeLoop_mem h hkv with h1 | ⟨us', hv, hmem⟩
  · cases h1
  · obtain rfl : us' = us := by
      simpa using hv.symm
    exact usesDepth_lt hmem

theorem readObjectF_congr :
    ∀ (f : Nat) {g : Nat} {u1 u2 : List Use},
      analyzeObject u1 = analyzeObject u2 →
      usesDepth u1 < f → usesDepth u2 < g → readObjectF f u1 = readObjectF g u2 := by
  intro f
  induction f using Nat.strong_induction_on with
  | _ f IH =>
    intro g u1 u2 h h1 h2
    obtain ⟨f1, rfl⟩ : ∃ f1, f = f1 + 1 := ⟨f - 1, by omega⟩
    obtain ⟨g1, rfl⟩ : ∃ g1, g = g1 + 1 := ⟨g - 1, by omega⟩
    cases hA : analyzeObject u2 with
    | none => simp only [readObjectF, h, hA]
    | some p =>
      obtain ⟨c, m⟩ := p
      have hdep : ∀ {k : Int} {us : List Use}, (k, some us) ∈ m →
          usesDepth us < f1 ∧ usesDepth us < g1 := by
        intro k us hkv
        constructor
        · have := analyzeObject_value_depth (h.trans hA) hkv
          omega
        · have := analyzeObject_value_depth hA hkv
          omega
      simp only [readObjectF, h, hA]
      cases c with
      | none =>
        cases m with
        | nil => rfl
        | cons e rest =>
          obtain ⟨front, v⟩ := e
          refine congrArg mkChain (List.filterMap_congr ?_)
          intro kv hkv
          cases hv : kv.2 with
          | none => rfl
          | some us =>
            have hkv2 : (kv.1, some us) ∈ (front, v) :: rest := by
              rw [← hv]; exact hkv
            obtain ⟨hf, hg⟩ := hdep hkv2
            exact congrArg (surviveField front kv.1) (IH f1 (Nat.lt_succ_self _) rfl hf hg)
      | some cus =>
        cases hE : mapInsert m 0 none with
        | nil => exact absurd hE mapInsert_ne_nil
        | cons e rest =>
          obtain ⟨front, v⟩ := e
          refine congrArg mkChain (List.filterMap_congr ?_)
          intro kv hkv
          cases hv : kv.2 with
          | none => rfl
          | some us =>
            have hkv2 : (kv.1, some us) ∈ m := by
              have : kv ∈ mapInsert m 0 none := by rw [hE]; exact hkv
              rcases mapInsert_mem this with h3 | h3
              · rw [← hv]; exact h3
              · rw [h3] at hv; cases hv
            obtain ⟨hf, hg⟩ := hdep hkv2
            exact congrArg (surviveField front kv.1) (IH f1 (Nat.lt_succ_self _) rfl hf hg)

theorem readObjectF_eq_readObject {f : Nat} {uses : List Use}
    (h : usesDepth uses < f) : readObjectF f uses = readObject uses :=
  readObjectF_congr f rfl h (Nat.lt_succ_self _)

theorem readObject_congr {u1 u2 : List Use}
    (h : analyzeObject u1 = analyzeObject u2) : readObject u1 = readObject u2 :=
  readObjectF_congr _ h (Nat.lt_succ_self _) (Nat.lt_succ_self _)

theorem readObject_null_of_analyze_none {uses : List Use}
    (h : analyzeObject uses = none) : readObject uses = .null := by
  simp only [readObject, readObjectF, h]

theorem usesDepth_append {l1 l2 : List Use} :
    usesDepth (l1 ++ l2) = max (usesDepth l1) (usesDepth l2) := by
  induction l1 with
  | nil => simp [usesDepth]
  | cons u rest ih =>
    simp only [List.cons_append, usesDepth, List.append_eq] at *
    rw [ih]
    omega

/-! Claims. -/

/-- Claim C1, counterexample: for a base whose only use is a cast to
pointer loaded as `int8`, the Builder does NOT return a bare Scalar
(`object`) node — it returns a single-field Struct wrapping it — and the
end-to-end report is not `(int8)`. -/
theorem C1_counterexample :
    readObject [Use.cast true [some "int8"]]
      = .structField 0 (.object [some "int8"]) .null ∧
    report [Use.cast true [some "int8"]] ≠ "(int8)" := by decide

/-- Claim C1, amended: for a base value whose only recognized direct use is
a single cast-to-pointer feeding exactly one load of type `T` (no additive
uses), the Builder returns a single-field Struct at relative offset 0 whose
field type is the Scalar with type set exactly `{T}`; the Normalizer leaves
this wrapper in place (collapse requires the field's type to be a Struct),
and the end-to-end report renders as `{0: (int8)}` when `T` is `int8`. -/
theorem C1_amended :
    (∀ t : String, readObject [Use.cast true [some t]]
        = .structField 0 (.object [some t]) .null) ∧
    report [Use.cast true [some "int8"]] = "\x7b0: (int8)\x7d" :=
  ⟨fun _ => rfl, by decide⟩

/-- Claim C2: for base `sp` with uses `sp+0` cast to `i32*` loaded as
`int32` and `sp+4` cast to `i32*` loaded as `int32`, the full
builder → normalizer → presentation pipeline emits `{0: (int32), 4: (int32)}`. -/
theorem C2_end_to_end :
    report [Use.addConst 0 [Use.cast true [some "int32"]],
            Use.addConst 4 [Use.cast true [some "int32"]]]
      = "\x7b0: (int32), 4: (int32)\x7d" := by decide

/-- Claim C3, counterexample: normalizing a Struct with a single field at
offset 0 whose type is a Struct with a single field at offset 0 of Scalar
type `T` yields the single-field Struct `{0: T}`, which is not `T`. -/
theorem C3_counterexample :
    simplifyTrivialStructures
        (.structField 0 (.structField 0 (.object [some "int32"]) .null) .null)
      = .structField 0 (.object [some "int32"]) .null ∧
    StackObject.structField 0 (.object [some "int32"]) .null
      ≠ .object [some "int32"] := by decide

/-- Claim C3, amended: for every Struct node with a single field at
relative offset 0 whose field type is itself a Struct with a single field
at relative offset 0 and field type `T`, the Normalizer discards the
intermediate Struct but keeps the outer one: the result is the single-field
Struct at offset 0 whose field type is the normalization of `T`, not `T`
itself. -/
theorem C3_amended (T : StackObject) :
    simplifyTrivialStructures (.structField 0 (.structField 0 T .null) .null)
      = .structField 0 (simplifyTrivialStructures T) .null := rfl

/-- Claim C4, counterexample: the tree obtained by one Normalizer pass on a
five-deep chain of single-field offset-0 wrappers is a three-deep chain; a
second Normalizer pass changes it again, and the re-normalized tree renders
to different text. -/
theorem C4_counterexample :
    simplifyTrivialStructures (wrap 5 (.object [some "int32"]))
      = wrap 3 (.object [some "int32"]) ∧
    (simplifyTrivialStructures
        (simplifyTrivialStructures (wrap 5 (.object [some "int32"])))).print
      ≠ (simplifyTrivialStructures (wrap 5 (.object [some "int32"]))).print := by decide

/-- Claim C4, amended: the Normalizer is not idempotent.  When it collapses
a wrapper it substitutes the grandchild's normalization without re-testing
the collapsibility of the substituted node, so one pass maps a chain of
`2n+1` nested single-field offset-0 wrappers around a Scalar to a chain of
`n+1` wrappers; outputs of one pass with three or more remaining wrapper
levels (such as the first-pass image of a five-deep chain) are therefore
changed again — and render differently — under a second pass. -/
theorem C4_amended (p : List (Option String)) (n : Nat) :
    simplifyTrivialStructures (wrap (2 * n + 1) (.object p))
      = wrap (n + 1) (.object p) := by
  induction n with
  | zero => rfl
  | succ n ih =>
    have h : 2 * (n + 1) + 1 = (2 * n + 1) + 1 + 1 := by omega
    have ih2 : simplifyTrivialStructures
        (StackObject.structField 0 (wrap (2 * n) (.object p)) .null)
        = .structField 0 (wrap n (.object p)) .null := by
      simpa [wrap] using ih
    rw [h]
    simp only [wrap, simplifyTrivialStructures]
    rw [ih2]

/-- Claim C5, counterexample: with two additive uses carrying the identical
constant offset 8, the constant-offset map keeps the FIRST-visited use
(`std::map::insert` does not overwrite), so the field built for offset 8
recurses into the first-seen additive instruction (type `int8`), not the
last-seen one (type `int16`). -/
theorem C5_counterexample :
    analyzeObject [Use.addConst 8 [Use.cast true [some "int8"]],
                   Use.addConst 8 [Use.cast true [some "int16"]]]
      = some (none, [(8, some [Use.cast true [some "int8"]])]) ∧
    report [Use.addConst 8 [Use.cast true [some "int8"]],
            Use.addConst 8 [Use.cast true [some "int16"]]]
      = "\x7b0: (int8)\x7d" :=
  ⟨rfl, by decide⟩

/-- Claim C5, amended: when two additive uses carry the identical constant
offset, the earlier-visited use is kept in the constant-offset map —
`std::map::insert` does nothing on a duplicate key, so the first write
wins — and the field built for that offset recurses into the first-seen
additive instruction. -/
theorem C5_amended (off : Int) (a b : List Use) :
    analyzeObject [Use.addConst off a, Use.addConst off b]
      = some (none, [(off, some a)]) := by
  simp [analyzeObject, analyzeLoop, mapInsert]

/-- Claim C6, counterexample: a non-`Add` binary operator (a subtraction or
multiplication) is NOT ignored: its presence makes the base unrecoverable
even though a recognized cast use exists, so the Builder's result is not
the same as with that use absent. -/
theorem C6_counterexample :
    readObject [Use.binOther, Use.cast true [some "int8"]] = .null ∧
    readObject [Use.cast true [some "int8"]] ≠ .null := by decide

/-- Claim C6, amended: a direct use that is neither a binary operator nor a
cast (for example a comparison or a call) is ignored and contributes
nothing — the Builder's result is unchanged by its presence — and the same
holds for a cast whose opcode is not int-to-pointer; but a binary operator
whose opcode is not `Add` (a subtraction or a multiplication) makes the
base unrecoverable regardless of the other uses. -/
theorem C6_amended (pre post : List Use) :
    readObject (pre ++ Use.other :: post) = readObject (pre ++ post) ∧
    (∀ cus, readObject (pre ++ Use.cast false cus :: post)
        = readObject (pre ++ post)) ∧
    readObject (pre ++ Use.binOther :: post) = .null := by
  refine ⟨?_, fun cus => ?_, ?_⟩
  · apply readObject_congr
    simp only [analyzeObject]
    rw [@analyzeLoop_append pre (Use.other :: post), @analyzeLoop_append pre post]
    rfl
  · apply readObject_congr
    simp only [analyzeObject]
    rw [@analyzeLoop_append pre (Use.cast false cus :: post), @analyzeLoop_append pre post]
    rfl
  · apply readObject_null_of_analyze_none
    simp only [analyzeObject]
    rw [@analyzeLoop_append pre (Use.binOther :: post)]
    cases analyzeLoop pre none [] <;> rfl

/-- Claim C7: if any direct use adds a non-constant operand to the base
value, the Builder returns unrecoverable (null) for that base, regardless
of any constant-offset or cast uses also present. -/
theorem C7_variable_offset_unrecoverable (uses : List Use)
    (h : Use.addVar ∈ uses) : readObject uses = .null :=
  readObject_null_of_analyze_none (analyzeLoop_addVar h)

/-- Witness for C7 at a concrete base that also has a constant-offset use. -/
theorem C7_witness :
    readObject [Use.addConst 4 [Use.cast true [some "int32"]], Use.addVar]
      = .null :=
  C7_variable_offset_unrecoverable _
    (List.mem_cons_of_mem _ (List.mem_cons_self _ _))

/-- Claim C8 (the code contradicts its own assertion): `analyzeObject`
records ANY int-to-pointer cast as the base's scalar interpretation, even
one with no load or store users at all, so the Builder can produce a Scalar
(`object`) node whose observed type set is empty — on which the
`assert(types.size() > 0)` of `StackObject::print` (here
`scalarTypesNonempty`) fires, also after normalization. -/
theorem C8_assert_can_fire :
    readObject [Use.cast true []] = .structField 0 (.object []) .null ∧
    scalarTypesNonempty
        (simplifyTrivialStructures (readObject [Use.cast true []])) = false ∧
    getPointerCastTypes [] = [] := by decide

/-- Claim C10: when a base value has both a direct pointer-cast
interpretation and an explicit additive use at constant offset 0, the
synthetic `{0, nullptr}` entry is not inserted (the map keeps the existing
entry), so the offset-0 field is produced by recursing into the additive
instruction, and the direct cast interpretation is silently dropped: the
result does not depend on the cast's observed types at all. -/
theorem C10_explicit_offset0_wins (cus : List (Option String)) (us : List Use) :
    readObject [Use.cast true cus, Use.addConst 0 us]
      = match readObject us with
        | .null => .null
        | child => .structField 0 child .null := by
  have hd : usesDepth [Use.cast true cus, Use.addConst 0 us] = usesDepth us + 1 := by
    simp [usesDepth, useDepth]
  simp only [readObject, hd]
  generalize usesDepth us + 1 = d
  simp only [readObjectF, analyzeObject, analyzeLoop, mapInsert]
  cases hru : readObjectF d us with
  | null => simp [hru, surviveField, mkChain]
  | object c => simp [hru, surviveField, mkChain]
  | array e n => simp [hru, surviveField, mkChain]
  | structField o t nx => simp [hru, surviveField, mkChain]

/-! Equation-shaped lemmas for one unfolding of `readObjectF`, and
order/sign invariants of the emitted field chain (claim C9). -/

theorem readObjectF_nil (f : Nat) : readObjectF f [] = .null := by
  cases f <;> rfl

theorem readObjectF_none {uses : List Use} (hA : analyzeObject uses = none)
    (f : Nat) : readObjectF f uses = .null := by
  cases f with
  | zero => rfl
  | succ f => simp only [readObjectF, hA]

theorem readObjectF_empty_map {uses : List Use} {f : Nat}
    (hA : analyzeObject uses = some (none, [])) :
    readObjectF (f + 1) uses = .null := by
  simp only [readObjectF, hA]

theorem readObjectF_cons_none {uses : List Use} {f : Nat} {front : Int}
    {v : Option (List Use)} {rest : List OffEntry}
    (hA : analyzeObject uses = some (none, (front, v) :: rest)) :
    readObjectF (f + 1) uses
      = mkChain (((front, v) :: rest).filterMap (fun kv =>
          surviveField front kv.1
            (match kv.2 with
             | none => StackObject.null
             | some us => readObjectF f us))) := by
  simp only [readObjectF, hA]

theorem readObjectF_cons_some {uses : List Use} {f : Nat}
    {cus : List (Option String)} {m : List OffEntry} {front : Int}
    {v : Option (List Use)} {rest : List OffEntry}
    (hA : analyzeObject uses = some (some cus, m))
    (hM : mapInsert m 0 none = (front, v) :: rest) :
    readObjectF (f + 1) uses
      = mkChain (((front, v) :: rest).filterMap (fun kv =>
          surviveField front kv.1
            (match kv.2 with
             | none => StackObject.object cus
             | some us => readObjectF f us))) := by
  simp only [readObjectF, hA, hM]

theorem surviveField_some {front k : Int} {c : StackObject} {r : Int × StackObject}
    (h : surviveField front k c = some r) : r.1 = k - front := by
  cases c with
  | null => exact absurd h (by simp [surviveField])
  | object p => obtain rfl := (Option.some.inj h).symm; rfl
  | array e n => obtain rfl := (Option.some.inj h).symm; rfl
  | structField o t nx => obtain rfl := (Option.some.inj h).symm; rfl

theorem chainOffsets_mkChain (L : List (Int × StackObject)) :
    chainOffsets (mkChain L) = L.map Prod.fst := by
  induction L with
  | nil => rfl
  | cons e rest ih =>
    obtain ⟨o, t⟩ := e
    simp [mkChain, chainOffsets, ih]

theorem surviveFields_sorted (front : Int) (child : OffEntry → StackObject) :
    ∀ E : List OffEntry, E.Pairwise (fun a b => a.1 < b.1) →
      (∀ e ∈ E, front ≤ e.1) →
      ((E.filterMap (fun kv => surviveField front kv.1 (child kv))).map
          Prod.fst).Pairwise (· < ·) ∧
      ∀ o ∈ (E.filterMap (fun kv => surviveField front kv.1 (child kv))).map
          Prod.fst, 0 ≤ o := by
  intro E
  induction E with
  | nil =>
    intro _ _
    simp
  | cons e rest ih =>
    intro hp hf
    rw [List.pairwise_cons] at hp
    obtain ⟨h1, h2⟩ := hp
    obtain ⟨ihs, ihn⟩ := ih h2 (fun x hx => hf x (List.mem_cons_of_mem _ hx))
    cases hs : surviveField front e.1 (child e) with
    | none =>
      simp only [List.filterMap_cons, hs]
      exact ⟨ihs, ihn⟩
    | some r =>
      have hr : r.1 = e.1 - front := surviveField_some hs
      simp only [List.filterMap_cons, hs, List.map_cons]
      constructor
      · rw [List.pairwise_cons]
        refine ⟨?_, ihs⟩
        intro o ho
        rw [List.mem_map] at ho
        obtain ⟨q, hq, rfl⟩ := ho
        rw [List.mem_filterMap] at hq
        obtain ⟨kv, hkv, hkvs⟩ := hq
        have hq1 : q.1 = kv.1 - front := surviveField_some hkvs
        have hek : e.1 < kv.1 := h1 kv hkv
        rw [hr, hq1]
        omega
      · intro o ho
        rcases List.mem_cons.mp ho with ho | ho
        · have hfe : front ≤ e.1 := hf e (List.mem_cons_self _ _)
          rw [ho, hr]
          omega
        · exact ihn o ho

theorem readObject_def (uses : List Use) :
    readObject uses = readObjectF (usesDepth uses + 1) uses := rfl

/-- Claim C9: for every Struct the Builder returns, the fields appear in
strictly ascending offset order; every stored offset is relative to the
minimum observed offset of the group, hence non-negative; and a child
recursion that fails to recover (here: an additive use whose instruction
has no uses of its own, placed above all other offsets so that the
reference point is unchanged) merely omits that one field, leaving the
parent and all sibling fields exactly as they would have been. -/
theorem C9_struct_fields (uses : List Use) :
    (chainOffsets (readObject uses)).Pairwise (· < ·) ∧
    (∀ o ∈ chainOffsets (readObject uses), 0 ≤ o) ∧
    (∀ k : Int, 0 < k → (∀ off us, Use.addConst off us ∈ uses → off < k) →
      readObject (uses ++ [Use.addConst k []]) = readObject uses) := by
  have h12 : (chainOffsets (readObject uses)).Pairwise (· < ·) ∧
      (∀ o ∈ chainOffsets (readObject uses), 0 ≤ o) := by
    cases hA : analyzeObject uses with
    | none =>
      rw [readObject_null_of_analyze_none hA]
      exact ⟨List.Pairwise.nil, by simp [chainOffsets]⟩
    | some p =>
      obtain ⟨c, m⟩ := p
      have hm : m.Pairwise (fun a b => a.1 < b.1) :=
        analyzeLoop_pairwise hA List.Pairwise.nil
      cases c with
      | none =>
        cases m with
        | nil =>
          rw [readObject_def, readObjectF_empty_map hA]
          exact ⟨List.Pairwise.nil, by simp [chainOffsets]⟩
        | cons e rest =>
          obtain ⟨front, v⟩ := e
          rw [readObject_def, readObjectF_cons_none hA, chainOffsets_mkChain]
          refine surviveFields_sorted front _ ((front, v) :: rest) hm ?_
          intro x hx
          rcases List.mem_cons.mp hx with hx | hx
          · rw [hx]
          · rw [List.pairwise_cons] at hm
            exact le_of_lt (hm.1 x hx)
      | some cus =>
        have hm2 : (mapInsert m 0 none).Pairwise (fun a b => a.1 < b.1) :=
          mapInsert_pairwise hm
        cases hM : mapInsert m 0 none with
        | nil => exact absurd hM mapInsert_ne_nil
        | cons e rest =>
          obtain ⟨front, v⟩ := e
          rw [hM] at hm2
          rw [readObject_def, readObjectF_cons_some hA hM, chainOffsets_mkChain]
          refine surviveFields_sorted front _ ((front, v) :: rest) hm2 ?_
          intro x hx
          rcases List.mem_cons.mp hx with hx | hx
          · rw [hx]
          · rw [List.pairwise_cons] at hm2
            exact le_of_lt (hm2.1 x hx)
  refine ⟨h12.1, h12.2, ?_⟩
  intro k hk hlt
  cases hA : analyzeObject uses with
  | none =>
    have hA2 : analyzeObject (uses ++ [Use.addConst k []]) = none := by
      simp only [analyzeObject] at hA ⊢
      rw [@analyzeLoop_append uses [Use.addConst k []], hA]
      rfl
    rw [readObject_null_of_analyze_none hA2, readObject_null_of_analyze_none hA]
  | some p =>
    obtain ⟨c, m⟩ := p
    have hkeys : ∀ e ∈ m, e.1 < k := by
      intro e he
      rcases analyzeLoop_mem hA he with h0 | ⟨us, hv, hmem⟩
      · cases h0
      · exact hlt e.1 us hmem
    have hA2 : analyzeObject (uses ++ [Use.addConst k []])
        = some (c, m ++ [(k, some [])]) := by
      simp only [analyzeObject] at hA ⊢
      rw [@analyzeLoop_append uses [Use.addConst k []], hA]
      show analyzeLoop [Use.addConst k []] c m = _
      simp only [analyzeLoop]
      rw [mapInsert_gt hkeys]
    have hdep : ∀ {kk : Int} {uss : List Use}, (kk, some uss) ∈ m →
        usesDepth uss < usesDepth uses := fun h => analyzeObject_value_depth hA h
    have hdd : usesDepth uses ≤ usesDepth (uses ++ [Use.addConst k []]) := by
      rw [usesDepth_append]
      exact Nat.le_max_left _ _
    cases c with
    | none =>
      cases m with
      | nil =>
        have hA2n : analyzeObject (uses ++ [Use.addConst k []])
            = some (none, [((k : Int), some ([] : List Use))]) := by simpa using hA2
        rw [readObject_def, readObject_def, readObjectF_cons_none hA2n,
            readObjectF_empty_map hA]
        simp [List.filterMap_cons, readObjectF_nil, surviveField, mkChain]
      | cons e rest =>
        obtain ⟨front, v⟩ := e
        have hA2n : analyzeObject (uses ++ [Use.addConst k []])
            = some (none, (front, v) :: (rest ++ [(k, some [])])) := by
          simpa using hA2
        rw [readObject_def, readObject_def, readObjectF_cons_none hA2n,
            readObjectF_cons_none hA]
        rw [show ((front, v) :: (rest ++ [((k : Int), some ([] : List Use))]))
            = ((front, v) :: rest) ++ [(k, some [])] from by simp]
        rw [List.filterMap_append]
        rw [show List.filterMap (fun kv =>
            surviveField front kv.1
              (match kv.2 with
               | none => StackObject.null
               | some us => readObjectF (usesDepth (uses ++ [Use.addConst k []])) us))
            [((k : Int), some ([] : List Use))] = [] from by
          simp [List.filterMap_cons, readObjectF_nil, surviveField]]
        rw [List.append_nil]
        refine congrArg mkChain (List.filterMap_congr ?_)
        intro kv hkv
        cases hv : kv.2 with
        | none => rfl
        | some us =>
          have hmm : (kv.1, some us) ∈ (front, v) :: rest := by
            rw [← hv]
            exact hkv
          have hd1 : usesDepth us < usesDepth uses := hdep hmm
          exact congrArg (surviveField front kv.1)
            (readObjectF_congr _ rfl (by omega) hd1)
    | some cus =>
      cases hM : mapInsert m 0 none with
      | nil => exact absurd hM mapInsert_ne_nil
      | cons e rest =>
        obtain ⟨front, v⟩ := e
        have hMk : mapInsert (m ++ [(k, some [])]) 0 none
            = (front, v) :: (rest ++ [(k, some [])]) := by
          rw [mapInsert_zero_append hk hkeys, hM]
          simp
        rw [readObject_def, readObject_def, readObjectF_cons_some hA2 hMk,
            readObjectF_cons_some hA hM]
        rw [show ((front, v) :: (rest ++ [((k : Int), some ([] : List Use))]))
            = ((front, v) :: rest) ++ [(k, some [])] from by simp]
        rw [List.filterMap_append]
        rw [show List.filterMap (fun kv =>
            surviveField front kv.1
              (match kv.2 with
               | none => StackObject.object cus
               | some us => readObjectF (usesDepth (uses ++ [Use.addConst k []])) us))
            [((k : Int), some ([] : List Use))] = [] from by
          simp [List.filterMap_cons, readObjectF_nil, surviveField]]
        rw [List.append_nil]
        refine congrArg mkChain (List.filterMap_congr ?_)
        intro kv hkv
        cases hv : kv.2 with
        | none => rfl
        | some us =>
          have hkv2 : (kv.1, some us) ∈ mapInsert m 0 none := by
            rw [hM, ← hv]
            exact hkv
          have hmm : (kv.1, some us) ∈ m := by
            rcases mapInsert_mem hkv2 with h3 | h3
            · exact h3
            · exact absurd (congrArg Prod.snd h3) (by simp)
          have hd1 : usesDepth us < usesDepth uses := hdep hmm
          exact congrArg (surviveField front kv.1)
            (readObjectF_congr _ rfl (by omega) hd1)

/-- Witness for C9 at a concrete base: offsets 0 and 4 plus a failing
child at offset 8 (an add instruction with no uses of its own); the failing
field is omitted and the rest of the struct is unchanged. -/
theorem C9_witness :
    readObject ([Use.addConst 0 [Use.cast true [some "int32"]],
                 Use.addConst 4 [Use.cast true [some "int16"]]]
        ++ [Use.addConst 8 []])
      = readObject [Use.addConst 0 [Use.cast true [some "int32"]],
                    Use.addConst 4 [Use.cast true [some "int16"]]] :=
  (C9_struct_fields _).2.2 8 (by decide) (by
    intro off us h
    rcases List.mem_cons.mp h with h1 | h1
    · injection h1 with h2 h3
      omega
    · rcases List.mem_cons.mp h1 with h2 | h2
      · injection h2 with h3 h4
        omega
      · cases h2)
